import Mathlib

/-!
A shallow embedding of the octree Boolean-difference engine of
src/src/cutsim/octree.cpp (class Octree), together with models of the
collaborating Octnode, Bbox and OCTVolume operations that the tree code
invokes but whose definitions live outside the given translation unit.
-/

set_option maxHeartbeats 1000000

attribute [local semireducible] Rat.add Rat.mul Rat.sub Rat.inv

/-- A 3-d point with exact rational coordinates (models class Point). -/
structure Point where
  x : ℚ
  y : ℚ
  z : ℚ
deriving DecidableEq

/-- Modelled from the spec: class Bbox (declared in bbox.h, missing from the
excerpt), an axis-aligned bounding box given by its min and max corners. -/
structure Bbox where
  minp : Point
  maxp : Point
deriving DecidableEq

/-- Modelled from the spec: Bbox::overlaps, the standard axis-aligned
interval-overlap test the volume exposes for pruning queries. -/
def Bbox.overlaps (a b : Bbox) : Bool :=
  (decide (a.minp.x ≤ b.maxp.x) && decide (b.minp.x ≤ a.maxp.x)) &&
  (decide (a.minp.y ≤ b.maxp.y) && decide (b.minp.y ≤ a.maxp.y)) &&
  (decide (a.minp.z ≤ b.maxp.z) && decide (b.minp.z ≤ a.maxp.z))

/-- The three-way classification of a cell against a cutting volume. -/
inductive VClass where
  | inside
  | outside
  | boundary
deriving DecidableEq

/-- Modelled from the spec: class OCTVolume, an external volume predicate
exposing a bounding box and an inside/outside/boundary test on a region. -/
structure OCTVolume where
  bb : Bbox
  classify : Bbox → VClass

/-- The per-node scalar state of an Octnode: geometry (center, scale = cube
half-width, depth, index among siblings), classification flags, the six
per-face outer-boundary flags, and the childcount field maintained by the
tree code. -/
structure NodeData where
  center : Point
  scale : ℚ
  depth : Nat
  idx : Nat
  inside : Bool
  outside : Bool
  surface : List Bool
  childcount : Nat
deriving DecidableEq

/-- An Octnode: scalar data plus eight child slots, each empty or holding a
child (the C++ child array of nullable owning pointers). -/
inductive Octnode : Type where
  | mk (data : NodeData) (children : List (Option Octnode))

def Octnode.data : Octnode → NodeData
  | .mk d _ => d

def Octnode.children : Octnode → List (Option Octnode)
  | .mk _ ch => ch

def Octnode.center (n : Octnode) : Point := n.data.center

def Octnode.scale (n : Octnode) : ℚ := n.data.scale

def Octnode.depth (n : Octnode) : Nat := n.data.depth

def Octnode.inside (n : Octnode) : Bool := n.data.inside

def Octnode.outside (n : Octnode) : Bool := n.data.outside

def Octnode.childcount (n : Octnode) : Nat := n.data.childcount

/-- Eight empty child slots, the initial child array of a fresh node. -/
def emptyChildren : List (Option Octnode) :=
  [none, none, none, none, none, none, none, none]

/-- The axis-aligned cube of half-width s centered at c. -/
def nodeBB (c : Point) (s : ℚ) : Bbox :=
  ⟨⟨c.x - s, c.y - s, c.z - s⟩, ⟨c.x + s, c.y + s, c.z + s⟩⟩

/-- The bounding box of a node, derived from its center and scale. -/
def Octnode.bb (n : Octnode) : Bbox := nodeBB n.center n.scale

/-- Modelled from the spec: the center of octant m of the cube with center c
and half-width s; each child sits at half the parent scale, offset to its
octant center, the three sign bits taken from the binary digits of m. -/
def childCenter (c : Point) (s : ℚ) (m : Nat) : Point :=
  ⟨c.x + (s / 2) * (if m % 2 = 1 then 1 else -1),
   c.y + (s / 2) * (if (m / 2) % 2 = 1 then 1 else -1),
   c.z + (s / 2) * (if (m / 4) % 2 = 1 then 1 else -1)⟩

/-- Modelled from the spec: the outer-boundary face flags a child in octant m
inherits; a face flag survives only on the three child faces coincident with
a parent boundary face (face order x-, x+, y-, y+, z-, z+). -/
def childSurface (p : List Bool) (m : Nat) : List Bool :=
  [(m % 2 == 0) && p.getD 0 false, (m % 2 == 1) && p.getD 1 false,
   ((m / 2) % 2 == 0) && p.getD 2 false, ((m / 2) % 2 == 1) && p.getD 3 false,
   ((m / 4) % 2 == 0) && p.getD 4 false, ((m / 4) % 2 == 1) && p.getD 5 false]

/-- A freshly created child node in octant m of a parent with center c,
half-width s, depth dep and surface flags surf: a leaf at depth dep + 1 with
half the scale, unclassified flags, and empty child slots. -/
def freshChild (c : Point) (s : ℚ) (dep : Nat) (m : Nat) (surf : List Bool) :
    Octnode :=
  .mk ⟨childCenter c s m, s / 2, dep + 1, m, false, false, childSurface surf m, 0⟩
    emptyChildren

/-- Modelled from the spec: Octnode::subdivide creates exactly 8 children
occupying the octants of the current cube and sets childcount to 8. -/
def Octnode.subdivide : Octnode → Octnode
  | .mk d _ =>
    .mk { d with childcount := 8 }
      [some (freshChild d.center d.scale d.depth 0 d.surface),
       some (freshChild d.center d.scale d.depth 1 d.surface),
       some (freshChild d.center d.scale d.depth 2 d.surface),
       some (freshChild d.center d.scale d.depth 3 d.surface),
       some (freshChild d.center d.scale d.depth 4 d.surface),
       some (freshChild d.center d.scale d.depth 5 d.surface),
       some (freshChild d.center d.scale d.depth 6 d.surface),
       some (freshChild d.center d.scale d.depth 7 d.surface)]

/-- The inside/outside flag pair produced by classifying a cell against a
volume: inside gives (true, false), outside gives (false, true), boundary
leaves both flags false. -/
def evalFlags (v : OCTVolume) (b : Bbox) : Bool × Bool :=
  match v.classify b with
  | .inside => (true, false)
  | .outside => (false, true)
  | .boundary => (false, false)

/-- Modelled from the spec: Octnode::evaluate determines and sets the node
inside/outside flags from the volume classification of the node region,
always overwriting the prior classification. -/
def Octnode.evaluate (n : Octnode) (v : OCTVolume) : Octnode :=
  match n with
  | .mk d ch =>
    let f := evalFlags v (nodeBB d.center d.scale)
    .mk { d with inside := f.1, outside := f.2 } ch

/-- The octree: root scale and max depth fixed at construction, plus the
owned root node (class Octree of octree.cpp). -/
structure Octree where
  root_scale : ℚ
  max_depth : Nat
  root : Octnode

/-- The Octree constructor: a root node of the given half-width and center at
depth 0, index 0, with all six cube faces marked as outer surface. -/
def Octree.construct (scale : ℚ) (depth : Nat) (centerp : Point) : Octree :=
  { root_scale := scale
    max_depth := depth
    root := .mk ⟨centerp, scale, 0, 0, false, false,
                 [true, true, true, true, true, true], 0⟩ emptyChildren }

/-- Octree::leaf_scale, the half-width of the smallest representable cell:
(2 * root_scale) / 2 ^ max_depth. -/
def Octree.leaf_scale (t : Octree) : ℚ :=
  (2 * t.root_scale) / 2 ^ t.max_depth

mutual

/-- Octree::get_leaf_nodes: collect, node before children and child slots in
index order 0..7 skipping empty slots, the leaf nodes (childcount zero)
reachable from the current node. -/
def get_leaf_nodes : Octnode → List Octnode
  | .mk d ch =>
    if d.childcount = 0 then [.mk d ch] else get_leaf_nodes_of_slots ch

/-- The child-slot loop of Octree::get_leaf_nodes. -/
def get_leaf_nodes_of_slots : List (Option Octnode) → List Octnode
  | [] => []
  | none :: rest => get_leaf_nodes_of_slots rest
  | some c :: rest => get_leaf_nodes c ++ get_leaf_nodes_of_slots rest

end

mutual

/-- Octree::get_all_nodes: collect every node reachable from the current
node, the node itself first, then the children depth-first in slot order. -/
def get_all_nodes : Octnode → List Octnode
  | .mk d ch => .mk d ch :: get_all_nodes_of_slots ch

/-- The child-slot loop of Octree::get_all_nodes. -/
def get_all_nodes_of_slots : List (Option Octnode) → List Octnode
  | [] => []
  | none :: rest => get_all_nodes_of_slots rest
  | some c :: rest => get_all_nodes c ++ get_all_nodes_of_slots rest

end

/-- The number of occupied slots in a child array. -/
def countSome (l : List (Option Octnode)) : Nat :=
  (l.filter (fun o => o.isSome)).length

mutual

/-- One round of Octree::init: every current leaf is subdivided
unconditionally (the code collects the leaf list and subdivides each
entry; subdividing a leaf does not disturb the other leaves, so the round
is the leaf-wise rebuild below). -/
def initRound : Octnode → Octnode
  | .mk d ch =>
    if d.childcount = 0 then Octnode.subdivide (.mk d ch)
    else .mk d (initRoundSlots ch)

/-- The child-slot traversal of one init round. -/
def initRoundSlots : List (Option Octnode) → List (Option Octnode)
  | [] => []
  | none :: rest => none :: initRoundSlots rest
  | some c :: rest => some (initRound c) :: initRoundSlots rest

end

/-- Octree::init: n rounds of uniform subdivision of every current leaf. -/
def Octree.init (t : Octree) (n : Nat) : Octree :=
  match n with
  | 0 => t
  | Nat.succ k => Octree.init { t with root := initRound t.root } k

/-- Octree::diff_negative specialized to a node freshly created by the
subdivide branch: the node is a leaf of the given geometry with empty child
slots and no prior flags (code lines 132-164 with the leaf path taken).
The gas argument is the remaining subdivision budget max_depth - dep, so
the gas-zero case is exactly the depth-equals-max_depth case of the code
check at line 153; every caller passes gas = max_depth - dep and every
recursive call keeps that correspondence, child depth dep + 1 against gas
decremented by one.  The result is none when the node classified inside
and so deleted itself from its parent, together with the conjunction of
the outcomes of every collapse assertion met below (line 148). -/
def build (v : OCTVolume) (c : Point) (s : ℚ) (dep : Nat)
    (idx : Nat) (surf : List Bool) : Nat → Option Octnode × Bool
  | 0 =>
    let f := evalFlags v (nodeBB c s)
    if f.1 = true then (none, true)
    else (some (.mk ⟨c, s, dep, idx, f.1, f.2, surf, 0⟩ emptyChildren), true)
  | Nat.succ gas =>
    let f := evalFlags v (nodeBB c s)
    if f.1 = true then (none, true)
    else if f.2 = true then
      (some (.mk ⟨c, s, dep, idx, f.1, f.2, surf, 0⟩ emptyChildren), true)
    else
      let r0 := if v.bb.overlaps (nodeBB (childCenter c s 0) (s / 2)) = true
        then build v (childCenter c s 0) (s / 2) (dep + 1) 0 (childSurface surf 0) gas
        else (some (freshChild c s dep 0 surf), true)
      let r1 := if v.bb.overlaps (nodeBB (childCenter c s 1) (s / 2)) = true
        then build v (childCenter c s 1) (s / 2) (dep + 1) 1 (childSurface surf 1) gas
        else (some (freshChild c s dep 1 surf), true)
      let r2 := if v.bb.overlaps (nodeBB (childCenter c s 2) (s / 2)) = true
        then build v (childCenter c s 2) (s / 2) (dep + 1) 2 (childSurface surf 2) gas
        else (some (freshChild c s dep 2 surf), true)
      let r3 := if v.bb.overlaps (nodeBB (childCenter c s 3) (s / 2)) = true
        then build v (childCenter c s 3) (s / 2) (dep + 1) 3 (childSurface surf 3) gas
        else (some (freshChild c s dep 3 surf), true)
      let r4 := if v.bb.overlaps (nodeBB (childCenter c s 4) (s / 2)) = true
        then build v (childCenter c s 4) (s / 2) (dep + 1) 4 (childSurface surf 4) gas
        else (some (freshChild c s dep 4 surf), true)
      let r5 := if v.bb.overlaps (nodeBB (childCenter c s 5) (s / 2)) = true
        then build v (childCenter c s 5) (s / 2) (dep + 1) 5 (childSurface surf 5) gas
        else (some (freshChild c s dep 5 surf), true)
      let r6 := if v.bb.overlaps (nodeBB (childCenter c s 6) (s / 2)) = true
        then build v (childCenter c s 6) (s / 2) (dep + 1) 6 (childSurface surf 6) gas
        else (some (freshChild c s dep 6 surf), true)
      let r7 := if v.bb.overlaps (nodeBB (childCenter c s 7) (s / 2)) = true
        then build v (childCenter c s 7) (s / 2) (dep + 1) 7 (childSurface surf 7) gas
        else (some (freshChild c s dep 7 surf), true)
      let slots := [r0.1, r1.1, r2.1, r3.1, r4.1, r5.1, r6.1, r7.1]
      let cc2 := countSome slots
      (some (.mk ⟨c, s, dep, idx, f.1, f.2, surf, cc2⟩ slots),
       (r0.2 && r1.2 && r2.2 && r3.2 && r4.2 && r5.2 && r6.2 && r7.2) &&
         ((cc2 != 0) || f.1))

/-- The per-slot step of the subdivide branch of Octree::diff_negative
(lines 156-160), factored for the proofs: slot m receives a fresh child of
a parent with center c, half-width s, depth dep and surface flags surf; the
fresh child is processed recursively exactly when the volume bounding box
overlaps its bounding box, else it is left untouched. -/
def buildChild (v : OCTVolume) (c : Point) (s : ℚ) (dep : Nat)
    (m : Nat) (surf : List Bool) (gas : Nat) : Option Octnode × Bool :=
  if v.bb.overlaps (nodeBB (childCenter c s m) (s / 2)) = true then
    build v (childCenter c s m) (s / 2) (dep + 1) m (childSurface surf m) gas
  else
    (some (freshChild c s dep m surf), true)

mutual

/-- Octree::diff_negative on a node of the existing tree.  The first
component is the slot content the parent retains for this node: none when
the node was an inside leaf and deleted itself from its parent (lines
135-150), some of the rewritten node otherwise.  The parent-side
bookkeeping of a deletion (clear the slot, decrement childcount, and when
childcount hits zero re-evaluate the parent and assert it inside) is
carried out by the caller in diffList and in the node case below.  The
second component conjoins the outcome of every collapse assertion
(line 148: a parent emptied by deletions must evaluate as inside). -/
def diff_negative (md : Nat) (v : OCTVolume) : Octnode → Option Octnode × Bool
  | .mk d ch =>
    let f := evalFlags v (nodeBB d.center d.scale)
    if d.childcount = 0 then
      if f.1 = true then (none, true)
      else if f.2 = true then
        (some (.mk { d with inside := f.1, outside := f.2 } ch), true)
      else if d.depth < md then
        build v d.center d.scale d.depth d.idx d.surface (md - d.depth)
      else (some (.mk { d with inside := f.1, outside := f.2 } ch), true)
    else
      let r := diffList md v ch
      let cc2 := d.childcount - r.2.1
      (some (.mk { d with inside := f.1, outside := f.2, childcount := cc2 } r.1),
       r.2.2 && ((cc2 != 0) || f.1))

/-- The child loop of Octree::diff_negative on an internal node (lines
166-171): every occupied slot whose child bounding box overlaps the volume
bounding box is processed recursively; a child that deleted itself leaves an
empty slot and bumps the deletion count.  Returns the new slot list, the
number of deletions, and the conjunction of the collapse-assertion outcomes
of the processed children. -/
def diffList (md : Nat) (v : OCTVolume) :
    List (Option Octnode) → List (Option Octnode) × Nat × Bool
  | [] => ([], 0, true)
  | none :: rest =>
    let r := diffList md v rest
    (none :: r.1, r.2)
  | some c :: rest =>
    let r := diffList md v rest
    if v.bb.overlaps c.bb = true then
      match diff_negative md v c with
      | (none, ok) => (none :: r.1, r.2.1 + 1, ok && r.2.2)
      | (some c2, ok) => (some c2 :: r.1, r.2.1, ok && r.2.2)
    else (some c :: r.1, r.2)

end

/-- Octree::diff_negative_root: run diff_negative at the root.  The root is
the one node with a null parent, so when it classifies as an inside leaf
the assert(parent) of line 137 fails (that abort is surfaced separately by
diff_negative_root_aborts below), while the if (parent) guard of line 138
skips the delete-from-parent block: the continuation state, which a build
with assertions disabled computes, keeps the root in place with its
freshly evaluated flags, and that state is what this function returns.
Its Bool component keeps tracking the line-148 collapse assertions only. -/
def Octree.diff_negative_root (t : Octree) (v : OCTVolume) : Octree × Bool :=
  match diff_negative t.max_depth v t.root with
  | (some r, ok) => ({ t with root := r }, ok)
  | (none, ok) => ({ t with root := t.root.evaluate v }, ok)

/-- Whether a diff_negative_root call trips the assert(parent) of line 137.
That assert sits outside the if (parent) guard, every node below the root
has a parent, and the root's parent pointer is null (line 44), so the pass
aborts in an assert-enabled build exactly when the root itself is an
inside-classified leaf that tried to delete itself, i.e. exactly when
diff_negative hands back an empty slot for the root. -/
def Octree.diff_negative_root_aborts (t : Octree) (v : OCTVolume) : Bool :=
  match diff_negative t.max_depth v t.root with
  | (none, _) => true
  | (some _, _) => false

/-- Increment slot i of a counter list; none when i is out of range (there
the vector write of Octree::str would be out of bounds). -/
def incAt (l : List Nat) (i : Nat) : Option (List Nat) :=
  if i < l.length then some (l.set i (l.getD i 0 + 1)) else none

/-- The per-depth leaf tally of Octree::str: a counter vector of size
max_depth is allocated and entry depth is incremented for every leaf; none
models the out-of-bounds vector write that happens for a leaf whose depth
reaches max_depth. -/
def Octree.strCounts (t : Octree) : Option (List Nat) :=
  (get_leaf_nodes t.root).foldl
    (fun acc n => acc.bind (fun l => incAt l n.depth))
    (some (List.replicate t.max_depth 0))

mutual

/-- The childcount bookkeeping invariant: every node of the subtree has
exactly 8 child slots and its childcount field equals the number of
occupied slots (so childcount always lies in [0, 8]). -/
def ccInv : Octnode → Bool
  | .mk d ch =>
    (d.childcount == countSome ch) && (ch.length == 8) && ccInvSlots ch

/-- The slot-wise part of ccInv. -/
def ccInvSlots : List (Option Octnode) → Bool
  | [] => true
  | none :: rest => ccInvSlots rest
  | some c :: rest => ccInv c && ccInvSlots rest

end

mutual

/-- Fullness: every node of the subtree has either no occupied child slots
or all 8 occupied, the shape construct and init produce (a difference pass
can break it by removing children selectively). -/
def fullInv : Octnode → Bool
  | .mk _ ch => (countSome ch == 0 || countSome ch == 8) && fullSlots ch

/-- The slot-wise part of fullInv. -/
def fullSlots : List (Option Octnode) → Bool
  | [] => true
  | none :: rest => fullSlots rest
  | some c :: rest => fullInv c && fullSlots rest

end

mutual

/-- The octant-geometry invariant: the child in slot m of any node sits at
the octant-m center of its parent, at half the parent scale and one level
deeper. -/
def geomInv : Octnode → Bool
  | .mk d ch => geomSlots d.center d.scale d.depth 0 ch

/-- The slot-wise part of geomInv; m is the index of the first listed slot. -/
def geomSlots : Point → ℚ → Nat → Nat → List (Option Octnode) → Bool
  | _, _, _, _, [] => true
  | c, s, dep, m, none :: rest => geomSlots c s dep (m + 1) rest
  | c, s, dep, m, some x :: rest =>
    ((x.center == childCenter c s m) && (x.scale == s / 2) &&
        (x.depth == dep + 1)) &&
      geomInv x && geomSlots c s dep (m + 1) rest

end

mutual

/-- A uniformly subdivided subtree of the given depth: a leaf for 0, and
for k + 1 a node with childcount 8 whose eight slots all hold uniform
subtrees of depth k. -/
def uniformB : Nat → Octnode → Bool
  | 0, n => n.childcount == 0
  | Nat.succ k, .mk d ch =>
    (d.childcount == 8) && (ch.length == 8) && uniformSlots k ch

/-- The slot-wise part of uniformB: every slot occupied and uniform. -/
def uniformSlots : Nat → List (Option Octnode) → Bool
  | _, [] => true
  | _, none :: _ => false
  | k, some c :: rest => uniformB k c && uniformSlots k rest

end

mutual

/-- Follow a path of child-slot indices downward from a node. -/
def getPath : Octnode → List Nat → Option Octnode
  | n, [] => some n
  | .mk _ ch, m :: rest => getPathSlots ch m rest

/-- Slot lookup step of getPath. -/
def getPathSlots : List (Option Octnode) → Nat → List Nat → Option Octnode
  | [], _, _ => none
  | o :: _, 0, rest =>
    match o with
    | none => none
    | some c => getPath c rest
  | _ :: l, Nat.succ m, rest => getPathSlots l m rest

end

/-- x is a node of the subtree rooted at n: n itself, or a node of the
subtree of some occupied child slot. -/
inductive Descendant : Octnode → Octnode → Prop where
  | refl (n : Octnode) : Descendant n n
  | step {c x : Octnode} (d : NodeData) (ch : List (Option Octnode))
      (hm : some c ∈ ch) (h : Descendant c x) : Descendant (.mk d ch) x

/-- A volume classifier is octant-coherent when any cube whose eight octants
all classify as inside itself classifies as inside; this is the partition
argument the spec gives to justify the collapse law. -/
def VolCoherent (v : OCTVolume) : Prop :=
  ∀ (c : Point) (s : ℚ),
    (∀ m, m < 8 → v.classify (nodeBB (childCenter c s m) (s / 2)) = .inside) →
    v.classify (nodeBB c s) = .inside

/-- Repeated application of diff_negative_root with one volume. -/
def iterDiff : Nat → Octree → OCTVolume → Octree
  | 0, t, _ => t
  | Nat.succ k, t, v => iterDiff k (t.diff_negative_root v).1 v

/-- Whether box a fully contains box b. -/
def Bbox.containsBox (a b : Bbox) : Bool :=
  (decide (a.minp.x ≤ b.minp.x) && decide (b.maxp.x ≤ a.maxp.x)) &&
  (decide (a.minp.y ≤ b.minp.y) && decide (b.maxp.y ≤ a.maxp.y)) &&
  (decide (a.minp.z ≤ b.minp.z) && decide (b.maxp.z ≤ a.maxp.z))

/-- The slot transformation the internal-node loop of diff_negative applies:
an empty slot stays empty, a child whose bounding box does not overlap the
volume bounding box is left untouched, and an overlapping child is replaced
by the outcome of its recursive pass (empty when it deleted itself). -/
def diffSlot (md : Nat) (v : OCTVolume) (o : Option Octnode) : Option Octnode :=
  match o with
  | none => none
  | some c =>
    if v.bb.overlaps c.bb = true then (diff_negative md v c).1 else some c

/-- The origin. -/
def origin : Point := ⟨0, 0, 0⟩

/-- A fresh octree of root half-width 1, max depth 1, centered at the
origin. -/
def tFresh : Octree := Octree.construct 1 1 origin

/-- tFresh after one round of uniform subdivision: eight leaves of depth 1. -/
def tOnce : Octree := tFresh.init 1

/-- The bounding box of the tFresh root. -/
def rootBox1 : Bbox := nodeBB origin 1

/-- The bounding box of octant 0 of the tFresh root. -/
def octant0Box : Bbox := nodeBB (childCenter origin 1 0) (1 / 2)

/-- A cutting volume that swallows everything: bounding box the whole root
cube and every cell classified inside. -/
def volAllInside : OCTVolume := ⟨rootBox1, fun _ => VClass.inside⟩

/-- A cutting volume whose bounding box strictly contains the tFresh root
box but whose classifier calls every cell outside (an empty volume with a
huge bounding box). -/
def volBigBoxEmpty : OCTVolume := ⟨nodeBB origin 2, fun _ => VClass.outside⟩

/-- A cutting volume whose bounding box is far away from the tFresh root box
and that classifies every cell as outside. -/
def volFarAway : OCTVolume := ⟨nodeBB ⟨10, 10, 10⟩ 1, fun _ => VClass.outside⟩

/-- First pass volume of the collapse-assertion counterexample: it fully
contains octant 0 of the root, straddles the root cell, and misses the
other octants. -/
def volPass1 : OCTVolume :=
  ⟨rootBox1, fun b =>
    if b == octant0Box then VClass.inside
    else if b == rootBox1 then VClass.boundary
    else VClass.outside⟩

/-- Second pass volume of the collapse-assertion counterexample: it fully
contains every cell except octant 0 of the root and the root cell itself. -/
def volPass2 : OCTVolume :=
  ⟨rootBox1, fun b =>
    if b == octant0Box then VClass.outside
    else if b == rootBox1 then VClass.outside
    else VClass.inside⟩

/-- The reachable tree of the collapse-assertion counterexample: tFresh
after one difference pass with volPass1 (the root keeps 7 children, octant
0 was consumed). -/
def tSeven : Octree := (tFresh.diff_negative_root volPass1).1

/-- A second cutting volume far away from the tFresh root box in the
opposite direction, classifying every cell outside. -/
def volFarAway2 : OCTVolume := ⟨nodeBB ⟨-10, -10, -10⟩ 1, fun _ => VClass.outside⟩

/-- A cutting volume with a small bounding box tucked into the corner of
octant 7 of the tFresh root cube: it overlaps the root box and octant 7 but
not octant 0. -/
def volCorner : OCTVolume := ⟨nodeBB ⟨3 / 4, 3 / 4, 3 / 4⟩ (1 / 8), fun _ => VClass.boundary⟩

/-- Child 0 of the tOnce root, as created by the subdivision round. -/
def sampleChild0 : Octnode :=
  freshChild origin 1 0 0 [true, true, true, true, true, true]

mutual

/-- Whether the volume bounding box overlaps the cell of every node of the
subtree (so no descent in a pass is ever pruned away). -/
def allOverlap (v : OCTVolume) : Octnode → Bool
  | .mk d ch => v.bb.overlaps (nodeBB d.center d.scale) && allOverlapSlots v ch

/-- Slot-wise part of allOverlap. -/
def allOverlapSlots (v : OCTVolume) : List (Option Octnode) → Bool
  | [] => true
  | none :: rest => allOverlapSlots v rest
  | some c :: rest => allOverlap v c && allOverlapSlots v rest

end

@[simp] theorem Octnode.data_mk (d : NodeData) (ch : List (Option Octnode)) :
    (Octnode.mk d ch).data = d := rfl

@[simp] theorem Octnode.children_mk (d : NodeData) (ch : List (Option Octnode)) :
    (Octnode.mk d ch).children = ch := rfl

@[simp] theorem Octnode.center_mk (d : NodeData) (ch : List (Option Octnode)) :
    (Octnode.mk d ch).center = d.center := rfl

@[simp] theorem Octnode.scale_mk (d : NodeData) (ch : List (Option Octnode)) :
    (Octnode.mk d ch).scale = d.scale := rfl

@[simp] theorem Octnode.depth_mk (d : NodeData) (ch : List (Option Octnode)) :
    (Octnode.mk d ch).depth = d.depth := rfl

@[simp] theorem Octnode.inside_mk (d : NodeData) (ch : List (Option Octnode)) :
    (Octnode.mk d ch).inside = d.inside := rfl

@[simp] theorem Octnode.outside_mk (d : NodeData) (ch : List (Option Octnode)) :
    (Octnode.mk d ch).outside = d.outside := rfl

@[simp] theorem Octnode.childcount_mk (d : NodeData) (ch : List (Option Octnode)) :
    (Octnode.mk d ch).childcount = d.childcount := rfl

@[simp] theorem Octnode.bb_mk (d : NodeData) (ch : List (Option Octnode)) :
    (Octnode.mk d ch).bb = nodeBB d.center d.scale := rfl

/-- Every some-result of build carries the evaluated flags and the geometry
build was called with. -/
theorem build_flags_of_some (v : OCTVolume) (c : Point) (s : ℚ)
    (dep idx : Nat) (surf : List Bool) (gas : Nat) (n' : Octnode)
    (h : (build v c s dep idx surf gas).1 = some n') :
    n'.inside = (evalFlags v (nodeBB c s)).1 ∧
    n'.outside = (evalFlags v (nodeBB c s)).2 ∧
    n'.center = c ∧ n'.scale = s ∧ n'.depth = dep := by
  rcases hE : evalFlags v (nodeBB c s) with ⟨fi, fo⟩
  cases gas with
  | zero =>
    rw [build] at h
    simp only [hE] at h
    cases fi with
    | true => simp at h
    | false =>
      simp at h
      subst h
      simp [hE]
  | succ gas =>
    rw [build] at h
    simp only [hE] at h
    cases fi with
    | true => simp at h
    | false =>
      cases fo with
      | true =>
        simp at h
        subst h
        simp [hE]
      | false =>
        simp only [Bool.false_eq_true, if_false] at h
        rw [Option.some.injEq] at h
        subst h
        simp [hE]

/-- Every some-result of diff_negative carries the flags of the entry
evaluation and the original geometry of the node. -/
theorem diff_flags_of_some (md : Nat) (v : OCTVolume) (d : NodeData)
    (ch : List (Option Octnode)) (n' : Octnode)
    (h : (diff_negative md v (Octnode.mk d ch)).1 = some n') :
    n'.inside = (evalFlags v (nodeBB d.center d.scale)).1 ∧
    n'.outside = (evalFlags v (nodeBB d.center d.scale)).2 ∧
    n'.center = d.center ∧ n'.scale = d.scale ∧ n'.depth = d.depth := by
  rcases hE : evalFlags v (nodeBB d.center d.scale) with ⟨fi, fo⟩
  rw [diff_negative] at h
  simp only [hE] at h
  by_cases hc : d.childcount = 0
  · simp only [hc, if_true] at h
    cases fi with
    | true => simp at h
    | false =>
      cases fo with
      | true =>
        simp at h
        subst h
        simp [hE]
      | false =>
        by_cases hd : d.depth < md
        · simp only [Bool.false_eq_true, if_false, hd, if_true] at h
          have := build_flags_of_some v d.center d.scale d.depth d.idx d.surface _ n' h
          rw [hE] at this
          exact this
        · simp only [Bool.false_eq_true, if_false, hd] at h
          rw [Option.some.injEq] at h
          subst h
          simp [hE]
  · simp only [hc, if_false] at h
    rw [Option.some.injEq] at h
    subst h
    simp [hE]

/-- C10: diff_negative_root calls diff_negative on the root unconditionally
and diff_negative evaluates every visited node before anything else, so
after every call the root classification flags equal the volume
classification of the root cell, for every tree and every volume -- also
one whose bounding box is disjoint from the root box; the bounding-box
pruning guards only descent into children. -/
theorem diff_root_always_evaluated (t : Octree) (v : OCTVolume) :
    (t.diff_negative_root v).1.root.inside = (evalFlags v t.root.bb).1 ∧
    (t.diff_negative_root v).1.root.outside = (evalFlags v t.root.bb).2 := by
  obtain ⟨rs, md, x⟩ := t
  obtain ⟨d, ch⟩ := x
  rcases hD : diff_negative md v (Octnode.mk d ch) with ⟨res, ok⟩
  cases res with
  | none =>
    simp only [Octree.diff_negative_root, hD, Octnode.evaluate]
    simp
  | some r =>
    have := diff_flags_of_some md v d ch r (by rw [hD])
    simp only [Octree.diff_negative_root, hD]
    simp only [Octnode.bb_mk]
    exact ⟨this.1, this.2.1⟩

/-- C9: for every tree constructed with root half-width rootScale and
subdivision ceiling maxDepth >= 1, leaf_scale() returns
(2 * rootScale) / 2 ^ maxDepth, which equals rootScale / 2 ^ (maxDepth - 1),
the half-width of the smallest representable cell. -/
theorem leaf_scale_eq (scale : ℚ) (md : Nat) (c : Point) (h : 1 ≤ md) :
    (Octree.construct scale md c).leaf_scale = scale / 2 ^ (md - 1) := by
  obtain ⟨k, rfl⟩ : ∃ k, md = k + 1 := ⟨md - 1, by omega⟩
  show (2 * scale) / 2 ^ (k + 1) = scale / 2 ^ (k + 1 - 1)
  rw [pow_succ, Nat.add_sub_cancel, mul_comm ((2:ℚ) ^ k) 2]
  rw [mul_div_mul_left _ _ (two_ne_zero)]

/-- Witness for leaf_scale_eq at rootScale 10, maxDepth 3. -/
theorem leaf_scale_eq_witness :
    1 ≤ 3 ∧ (Octree.construct 10 3 origin).leaf_scale = 10 / 2 ^ (3 - 1) :=
  ⟨by decide, leaf_scale_eq 10 3 origin (by decide)⟩

/-- C7 (code bug): the per-depth tally of Octree::str allocates a counter
vector of size max_depth only, yet a tree can hold leaves at depth
max_depth (tOnce has all eight leaves there), making the increment at
index depth an out-of-bounds vector write; the report can therefore never
produce the depth = maxDepth row that the leaf list of get_leaf_nodes
contains. -/
theorem strCounts_out_of_bounds :
    tOnce.max_depth = 1 ∧
    ((get_leaf_nodes tOnce.root).filter (fun n => n.depth == 1)).length = 8 ∧
    tOnce.strCounts = none := by decide

/-- C1 counterexample: tSeven is reachable (one construction, one
difference pass, assertions clean), its root keeps 7 children; the next
pass with volPass2 deletes all 7 as inside leaves, childcount drops to 0,
and the re-evaluated root classifies outside, so the collapse assertion of
line 148 fails: deleting an inside leaf emptied the parent without the
parent being inside. -/
theorem collapse_assertion_fails_on_reachable_tree :
    (tFresh.diff_negative_root volPass1).2 = true ∧
    tSeven.root.childcount = 7 ∧
    (tSeven.diff_negative_root volPass2).2 = false := by decide

/-- C2 counterexample: a cutting volume whose bounding box fully contains
the root box need not classify anything as inside; with a classifier that
calls every cell outside, one diff_negative_root pass on the fresh tree
leaves a single root leaf flagged not-inside, against the claimed inside
flag. -/
theorem bb_containment_not_sufficient :
    volBigBoxEmpty.bb.containsBox tFresh.root.bb = true ∧
    (get_leaf_nodes (tFresh.diff_negative_root volBigBoxEmpty).1.root).length = 1 ∧
    (tFresh.diff_negative_root volBigBoxEmpty).1.root.inside = false := by decide

/-- C3 counterexample: the tOnce root is internal, starts with both flags
clear, and a pass with a far-away volume overwrites its outside flag: an
internal node is re-classified, its flags are not left untouched. -/
theorem internal_node_reclassified :
    tOnce.root.childcount ≠ 0 ∧ tOnce.root.outside = false ∧
    (tOnce.diff_negative_root volFarAway).1.root.outside = true := by decide

/-- C4 counterexample: the whole tree is a subtree of itself whose
bounding box does not overlap the far-away volume, yet the pass changes
the root flags, so that subtree does not keep the same flags on every
node. -/
theorem non_overlapping_root_subtree_flags_change :
    (volFarAway2.bb.overlaps tOnce.root.bb) = false ∧
    tOnce.root.outside = false ∧
    (tOnce.diff_negative_root volFarAway2).1.root.outside = true := by decide

/-- C5 counterexample: with a volume whose bounding box misses the fresh
root box entirely, the tree stays a single leaf but the leaf does not stay
unflagged: the pass evaluates the root and sets its outside flag. -/
theorem far_volume_still_flags_fresh_root :
    (volFarAway.bb.overlaps tFresh.root.bb) = false ∧
    tFresh.root.outside = false ∧
    (tFresh.diff_negative_root volFarAway).1.root.outside = true := by decide

/-- C5 amended: applying diff_negative_root with a cutting volume whose
bounding box does not intersect the root box to a freshly constructed tree
keeps the single-leaf structure and the root geometry, but the root leaf
is evaluated: its flags are overwritten with the volume classification of
the root cell, so with a volume classifying that cell outside the leaf
ends flagged outside rather than unflagged. -/
theorem diff_far_volume_fresh (scale : ℚ) (md : Nat) (c : Point) (v : OCTVolume)
    (_hov : v.bb.overlaps (nodeBB c scale) = false)
    (hcl : v.classify (nodeBB c scale) = VClass.outside) :
    ((Octree.construct scale md c).diff_negative_root v).1.root
      = Octnode.mk ⟨c, scale, 0, 0, false, true,
          [true, true, true, true, true, true], 0⟩ emptyChildren ∧
    get_leaf_nodes ((Octree.construct scale md c).diff_negative_root v).1.root
      = [((Octree.construct scale md c).diff_negative_root v).1.root] := by
  have hD : diff_negative md v (Octnode.mk ⟨c, scale, 0, 0, false, false,
        [true, true, true, true, true, true], 0⟩ emptyChildren)
      = (some (Octnode.mk ⟨c, scale, 0, 0, false, true,
          [true, true, true, true, true, true], 0⟩ emptyChildren), true) := by
    rw [diff_negative]
    simp [evalFlags, hcl]
  constructor
  · simp [Octree.diff_negative_root, Octree.construct, hD]
  · simp only [Octree.diff_negative_root, Octree.construct, hD]
    rw [get_leaf_nodes]
    simp

/-- Witness for diff_far_volume_fresh at the tFresh parameters and the
far-away volume. -/
theorem diff_far_volume_fresh_witness :
    (volFarAway.bb.overlaps (nodeBB origin 1) = false ∧
     volFarAway.classify (nodeBB origin 1) = VClass.outside) ∧
    ((Octree.construct 1 1 origin).diff_negative_root volFarAway).1.root
      = Octnode.mk ⟨origin, 1, 0, 0, false, true,
          [true, true, true, true, true, true], 0⟩ emptyChildren :=
  ⟨⟨by decide, by decide⟩,
   (diff_far_volume_fresh 1 1 origin volFarAway (by decide) (by decide)).1⟩

/-- The slot list an internal-node pass produces is the element-wise
diffSlot image of the original slot list. -/
theorem diffList_fst_map (md : Nat) (v : OCTVolume) (l : List (Option Octnode)) :
    (diffList md v l).1 = l.map (diffSlot md v) := by
  induction l with
  | nil => rfl
  | cons o rest ih =>
    cases o with
    | none => simp [diffList, diffSlot, ih]
    | some c =>
      rw [diffList]
      by_cases hov : v.bb.overlaps c.bb = true
      · rcases hd : diff_negative md v c with ⟨res, ok⟩
        cases res <;> simp [hd, hov, diffSlot, ih]
      · simp [hov, diffSlot, ih]

/-- C3 amended: a node that is internal (childcount nonzero) is
re-evaluated by diff_negative -- its inside/outside flags are overwritten
with the volume classification of its own cell (the original claim's
"left untouched" fails, see the counterexample) -- and beyond that the
pass only recurses into existing occupied child slots whose bounding boxes
overlap the volume bounding box: the new slot list is the element-wise
diffSlot image, which keeps empty slots empty and non-overlapping children
untouched, and childcount drops by exactly the number of children that
deleted themselves. -/
theorem diff_internal_eq (md : Nat) (v : OCTVolume) (d : NodeData)
    (ch : List (Option Octnode)) (h : d.childcount ≠ 0) :
    diff_negative md v (Octnode.mk d ch)
      = (some (Octnode.mk
           { d with inside := (evalFlags v (nodeBB d.center d.scale)).1,
                    outside := (evalFlags v (nodeBB d.center d.scale)).2,
                    childcount := d.childcount - (diffList md v ch).2.1 }
           (ch.map (diffSlot md v))),
         (diffList md v ch).2.2
           && ((d.childcount - (diffList md v ch).2.1 != 0)
               || (evalFlags v (nodeBB d.center d.scale)).1)) := by
  rw [diff_negative]
  simp [h, diffList_fst_map]

/-- Witness for diff_internal_eq at the tOnce root and the far-away
volume. -/
theorem diff_internal_eq_witness :
    tOnce.root.data.childcount ≠ 0 ∧
    diff_negative 1 volFarAway (Octnode.mk tOnce.root.data tOnce.root.children)
      = (some (Octnode.mk
           { tOnce.root.data with
               inside := (evalFlags volFarAway
                 (nodeBB tOnce.root.data.center tOnce.root.data.scale)).1,
               outside := (evalFlags volFarAway
                 (nodeBB tOnce.root.data.center tOnce.root.data.scale)).2,
               childcount := tOnce.root.data.childcount
                 - (diffList 1 volFarAway tOnce.root.children).2.1 }
           (tOnce.root.children.map (diffSlot 1 volFarAway))),
         (diffList 1 volFarAway tOnce.root.children).2.2
           && ((tOnce.root.data.childcount
                 - (diffList 1 volFarAway tOnce.root.children).2.1 != 0)
               || (evalFlags volFarAway
                 (nodeBB tOnce.root.data.center tOnce.root.data.scale)).1)) :=
  ⟨by decide,
   diff_internal_eq 1 volFarAway tOnce.root.data tOnce.root.children (by decide)⟩

@[simp] theorem countSome_nil : countSome [] = 0 := rfl

@[simp] theorem countSome_none (l : List (Option Octnode)) :
    countSome (none :: l) = countSome l := by
  simp [countSome]

@[simp] theorem countSome_some (c : Octnode) (l : List (Option Octnode)) :
    countSome (some c :: l) = countSome l + 1 := by
  simp [countSome]

@[simp] theorem getPath_nil (n : Octnode) : getPath n [] = some n := by
  cases n
  rfl

/-- Unfolding of the slot walk of getPath. -/
theorem getPathSlots_eq (l : List (Option Octnode)) (m : Nat) (rest : List Nat) :
    getPathSlots l m rest
      = match l.get? m with
        | some (some c) => getPath c rest
        | _ => none := by
  induction l generalizing m with
  | nil => cases m <;> rfl
  | cons o tail ih =>
    cases m with
    | zero => cases o <;> rfl
    | succ m =>
      rw [getPathSlots]
      exact ih m

/-- A child found in a slot list satisfying ccInvSlots satisfies ccInv. -/
theorem ccInvSlots_mem (l : List (Option Octnode)) (c : Octnode)
    (h : ccInvSlots l = true) (hm : some c ∈ l) : ccInv c = true := by
  induction l with
  | nil => cases hm
  | cons o rest ih =>
    rcases List.mem_cons.mp hm with h1 | h1
    · subst h1
      simp only [ccInvSlots, Bool.and_eq_true] at h
      exact h.1
    · cases o with
      | none => exact ih (by rwa [ccInvSlots] at h) h1
      | some x =>
        simp only [ccInvSlots, Bool.and_eq_true] at h
        exact ih h.2 h1

/-- A slot list with an occupied slot has positive occupied count. -/
theorem countSome_pos_of_mem (l : List (Option Octnode)) (c : Octnode)
    (hm : some c ∈ l) : 0 < countSome l := by
  induction l with
  | nil => cases hm
  | cons o rest ih =>
    rcases List.mem_cons.mp hm with h1 | h1
    · subst h1; simp
    · cases o with
      | none => simpa using ih h1
      | some x => simp

/-- Core of the pruning property: a non-root node reachable by a nonempty
slot path whose bounding box does not overlap the volume bounding box is
still found unchanged at the same path after a diff_negative pass. -/
theorem diff_keeps_non_overlapping_path (md : Nat) (v : OCTVolume) :
    ∀ (pth : List Nat) (x S : Octnode), ccInv x = true → pth ≠ [] →
      getPath x pth = some S → v.bb.overlaps S.bb = false →
      ∃ x', (diff_negative md v x).1 = some x' ∧ getPath x' pth = some S := by
  intro pth
  induction pth with
  | nil => intro x S _ hne; exact absurd rfl hne
  | cons m rest ih =>
    intro x S hcc _ hS hov
    obtain ⟨d, ch⟩ := x
    rw [getPath, getPathSlots_eq] at hS
    rcases hg : ch.get? m with _ | o
    · rw [hg] at hS; cases hS
    · cases o with
      | none => rw [hg] at hS; cases hS
      | some c =>
        rw [hg] at hS
        have hS2 : getPath c rest = some S := hS
        have hmem : some c ∈ ch := List.get?_mem hg
        have hcne : d.childcount ≠ 0 := by
          rw [ccInv] at hcc
          simp only [Bool.and_eq_true, beq_iff_eq] at hcc
          have := countSome_pos_of_mem ch c hmem
          omega
        have hccc : ccInv c = true := by
          rw [ccInv] at hcc
          simp only [Bool.and_eq_true] at hcc
          exact ccInvSlots_mem ch c hcc.2 hmem
        rw [diff_negative]
        simp only [hcne, if_false]
        refine ⟨_, rfl, ?_⟩
        rw [getPath, getPathSlots_eq, diffList_fst_map, List.get?_map, hg]
        simp only [Option.map_some']
        rw [diffSlot]
        by_cases hovc : v.bb.overlaps c.bb = true
        · cases rest with
          | nil =>
            rw [getPath_nil, Option.some.injEq] at hS2
            subst hS2
            rw [hov] at hovc
            cases hovc
          | cons r rs =>
            obtain ⟨c', hc1, hc2⟩ := ih c S hccc (by simp) hS2 hov
            simp only [hovc, if_true, hc1]
            exact hc2
        · simp only [hovc, if_false]
          exact hS2

/-- C4 amended: bounding-box pruning protects every proper subtree: a
non-root node of a well-formed tree whose bounding box does not overlap
the volume bounding box sits entirely unchanged (the identical subtree,
hence the same leaf set and the same flags on every node) at its original
path after a diff_negative_root pass.  The root itself is excluded: it is
always evaluated (see the counterexample and C10). -/
theorem pruned_subtree_unchanged (t : Octree) (v : OCTVolume) (pth : List Nat)
    (S : Octnode) (hcc : ccInv t.root = true) (hne : pth ≠ [])
    (hS : getPath t.root pth = some S) (hov : v.bb.overlaps S.bb = false) :
    getPath (t.diff_negative_root v).1.root pth = some S := by
  obtain ⟨x', h1, h2⟩ :=
    diff_keeps_non_overlapping_path t.max_depth v pth t.root S hcc hne hS hov
  rcases hD : diff_negative t.max_depth v t.root with ⟨res, ok⟩
  rw [hD] at h1
  cases res with
  | none => cases h1
  | some r =>
    rw [Option.some.injEq] at h1
    subst h1
    simp only [Octree.diff_negative_root, hD]
    exact h2

/-- Witness for pruned_subtree_unchanged: child 0 of the tOnce root and a
volume tucked into the far corner of octant 7. -/
theorem pruned_subtree_unchanged_witness :
    (ccInv tOnce.root = true ∧ getPath tOnce.root [0] = some sampleChild0 ∧
     volCorner.bb.overlaps sampleChild0.bb = false) ∧
    getPath (tOnce.diff_negative_root volCorner).1.root [0] = some sampleChild0 :=
  ⟨⟨by decide, by rfl, by decide⟩,
   pruned_subtree_unchanged tOnce volCorner [0] sampleChild0 (by decide)
     (by decide) (by rfl) (by decide)⟩

/-- A fresh child satisfies the childcount invariant. -/
theorem ccInv_freshChild (c : Point) (s : ℚ) (dep m : Nat) (surf : List Bool) :
    ccInv (freshChild c s dep m surf) = true := rfl

/-- A slot list whose occupied slots all satisfy ccInv satisfies
ccInvSlots. -/
theorem ccInvSlots_of_all (l : List (Option Octnode))
    (h : ∀ x, some x ∈ l → ccInv x = true) : ccInvSlots l = true := by
  induction l with
  | nil => rfl
  | cons o rest ih =>
    cases o with
    | none =>
      rw [ccInvSlots]
      exact ih (fun x hx => h x (List.mem_cons_of_mem _ hx))
    | some c =>
      rw [ccInvSlots, Bool.and_eq_true]
      exact ⟨h c (List.mem_cons_self _ _),
             ih (fun x hx => h x (List.mem_cons_of_mem _ hx))⟩

/-- Subdividing any node yields a node satisfying the childcount
invariant. -/
theorem ccInv_subdivide (d : NodeData) (ch : List (Option Octnode)) :
    ccInv ((Octnode.mk d ch).subdivide) = true := by
  rw [Octnode.subdivide, ccInv]
  simp only [Bool.and_eq_true, beq_iff_eq]
  refine ⟨⟨by simp, by simp⟩, ?_⟩
  apply ccInvSlots_of_all
  intro x hx
  simp only [List.mem_cons, List.not_mem_nil, or_false, Option.some.injEq] at hx
  rcases hx with h|h|h|h|h|h|h|h <;>
    (subst h; exact ccInv_freshChild _ _ _ _ _)

/-- Any node produced by build satisfies the childcount invariant. -/
theorem ccInv_buildRes : ∀ (gas : Nat) (v : OCTVolume) (c : Point) (s : ℚ)
    (dep idx : Nat) (surf : List Bool) (n' : Octnode),
    (build v c s dep idx surf gas).1 = some n' → ccInv n' = true := by
  intro gas
  induction gas with
  | zero =>
    intro v c s dep idx surf n' h
    rw [build] at h
    by_cases h1 : (evalFlags v (nodeBB c s)).1 = true
    · simp [h1] at h
    · simp [h1] at h
      subst h
      rfl
  | succ gas ih =>
    intro v c s dep idx surf n' h
    rw [build] at h
    rcases hE : evalFlags v (nodeBB c s) with ⟨fi, fo⟩
    simp only [hE] at h
    cases fi with
    | true => simp at h
    | false =>
      cases fo with
      | true =>
        simp at h
        subst h
        rfl
      | false =>
        simp only [Bool.false_eq_true, if_false, Option.some.injEq] at h
        subst h
        rw [ccInv]
        simp only [Bool.and_eq_true, beq_iff_eq]
        refine ⟨⟨by simp, by simp⟩, ?_⟩
        apply ccInvSlots_of_all
        intro x hx
        simp only [List.mem_cons, List.not_mem_nil, or_false] at hx
        rcases hx with h|h|h|h|h|h|h|h <;>
          (rw [eq_comm] at h; split at h
           · exact ih _ _ _ _ _ _ _ h
           · simp only [Option.some.injEq] at h
             subst h
             exact ccInv_freshChild _ _ _ _ _)

mutual

/-- diff_negative maps nodes with valid childcount bookkeeping to nodes
with valid childcount bookkeeping. -/
theorem ccInv_diff (md : Nat) (v : OCTVolume) :
    ∀ (x : Octnode), ccInv x = true →
      ∀ n', (diff_negative md v x).1 = some n' → ccInv n' = true
  | .mk d ch => by
    intro hcc n' h
    rw [diff_negative] at h
    rcases hE : evalFlags v (nodeBB d.center d.scale) with ⟨fi, fo⟩
    simp only [hE] at h
    rw [ccInv] at hcc
    simp only [Bool.and_eq_true, beq_iff_eq] at hcc
    have hcc1 := hcc.1.1
    by_cases hc : d.childcount = 0
    · simp only [hc, if_true] at h
      cases fi with
      | true => simp at h
      | false =>
        cases fo with
        | true =>
          simp only [Bool.false_eq_true, if_false, if_true, Option.some.injEq] at h
          subst h
          rw [ccInv]
          simp only [Bool.and_eq_true, beq_iff_eq]
          exact ⟨⟨by omega, hcc.1.2⟩, hcc.2⟩
        | false =>
          by_cases hd : d.depth < md
          · simp only [Bool.false_eq_true, if_false, hd, if_true] at h
            exact ccInv_buildRes _ v d.center d.scale d.depth d.idx d.surface n' h
          · simp only [Bool.false_eq_true, if_false, hd, if_true] at h
            rw [Option.some.injEq] at h
            subst h
            rw [ccInv]
            simp only [Bool.and_eq_true, beq_iff_eq]
            exact ⟨⟨by omega, hcc.1.2⟩, hcc.2⟩
    · simp only [hc, if_false, Option.some.injEq] at h
      subst h
      have hl := ccInv_diffList md v ch hcc.2
      rw [ccInv]
      simp only [Bool.and_eq_true, beq_iff_eq]
      refine ⟨⟨?_, by rw [hl.2.1]; exact hcc.1.2⟩, hl.1⟩
      have := hl.2.2
      omega

/-- diffList preserves slot-wise childcount bookkeeping, preserves the slot
list length, and its deletion count accounts exactly for the occupied
slots that disappeared. -/
theorem ccInv_diffList (md : Nat) (v : OCTVolume) :
    ∀ (l : List (Option Octnode)), ccInvSlots l = true →
      ccInvSlots (diffList md v l).1 = true ∧
      (diffList md v l).1.length = l.length ∧
      countSome (diffList md v l).1 + (diffList md v l).2.1 = countSome l
  | [] => by
    intro _
    exact ⟨rfl, rfl, rfl⟩
  | none :: rest => by
    intro hl
    rw [ccInvSlots] at hl
    have ih := ccInv_diffList md v rest hl
    rw [diffList]
    refine ⟨?_, by simp [ih.2.1], ?_⟩
    · rw [ccInvSlots]
      exact ih.1
    · simp only [countSome_none]
      have := ih.2.2
      omega
  | some c :: rest => by
    intro hl
    rw [ccInvSlots] at hl
    simp only [Bool.and_eq_true] at hl
    have ih := ccInv_diffList md v rest hl.2
    rw [diffList]
    by_cases hov : v.bb.overlaps c.bb = true
    · rcases hd : diff_negative md v c with ⟨res, ok⟩
      cases res with
      | none =>
        simp only [hov, if_true, hd]
        refine ⟨?_, by simp [ih.2.1], ?_⟩
        · rw [ccInvSlots]
          exact ih.1
        · simp only [countSome_none, countSome_some]
          have := ih.2.2
          omega
      | some c2 =>
        simp only [hov, if_true, hd]
        refine ⟨?_, by simp [ih.2.1], ?_⟩
        · rw [ccInvSlots, Bool.and_eq_true]
          exact ⟨ccInv_diff md v c hl.1 c2 (by rw [hd]), ih.1⟩
        · simp only [countSome_some]
          have := ih.2.2
          omega
    · rw [Bool.not_eq_true] at hov
      simp only [hov, Bool.false_eq_true, if_false]
      refine ⟨?_, by simp [ih.2.1], ?_⟩
      · rw [ccInvSlots, Bool.and_eq_true]
        exact ⟨hl.1, ih.1⟩
      · simp only [countSome_some]
        have := ih.2.2
        omega

end

/-- Evaluating a node does not change its childcount bookkeeping. -/
theorem ccInv_evaluate (x : Octnode) (v : OCTVolume) :
    ccInv (x.evaluate v) = ccInv x := by
  obtain ⟨d, ch⟩ := x
  rw [Octnode.evaluate]
  rw [ccInv, ccInv]

/-- An init round keeps the length of a slot list. -/
theorem length_initRoundSlots (l : List (Option Octnode)) :
    (initRoundSlots l).length = l.length := by
  induction l with
  | nil => rfl
  | cons o rest ih => cases o <;> simp [initRoundSlots, ih]

/-- An init round keeps the number of occupied slots. -/
theorem countSome_initRoundSlots (l : List (Option Octnode)) :
    countSome (initRoundSlots l) = countSome l := by
  induction l with
  | nil => rfl
  | cons o rest ih => cases o <;> simp [initRoundSlots, ih]

mutual

/-- One init round preserves the childcount invariant. -/
theorem ccInv_initRound :
    ∀ (x : Octnode), ccInv x = true → ccInv (initRound x) = true
  | .mk d ch => by
    intro h
    rw [initRound]
    by_cases hc : d.childcount = 0
    · simp only [hc, if_true]
      exact ccInv_subdivide d ch
    · simp only [hc, if_false]
      rw [ccInv] at h ⊢
      simp only [Bool.and_eq_true, beq_iff_eq] at h ⊢
      refine ⟨⟨?_, ?_⟩, ccInvSlots_initRound ch h.2⟩
      · rw [countSome_initRoundSlots]
        exact h.1.1
      · rw [length_initRoundSlots]
        exact h.1.2

/-- The slot traversal of an init round preserves ccInvSlots. -/
theorem ccInvSlots_initRound :
    ∀ (l : List (Option Octnode)), ccInvSlots l = true →
      ccInvSlots (initRoundSlots l) = true
  | [] => by intro h; exact h
  | none :: rest => by
    intro h
    rw [ccInvSlots] at h
    rw [initRoundSlots, ccInvSlots]
    exact ccInvSlots_initRound rest h
  | some c :: rest => by
    intro h
    rw [ccInvSlots, Bool.and_eq_true] at h
    rw [initRoundSlots, ccInvSlots, Bool.and_eq_true]
    exact ⟨ccInv_initRound c h.1, ccInvSlots_initRound rest h.2⟩

end

/-- Octree::init preserves the childcount invariant. -/
theorem ccInv_init : ∀ (n : Nat) (t : Octree), ccInv t.root = true →
    ccInv (t.init n).root = true
  | 0, _, h => h
  | Nat.succ k, t, h => ccInv_init k _ (ccInv_initRound t.root h)

/-- C6: the childcount bookkeeping invariant -- every node has exactly 8
child slots and its childcount field equals the number of occupied slots,
hence lies in [0, 8] -- holds after construction and is preserved by init
and by diff_negative_root; in particular each inside-leaf deletion in a
pass clears exactly one occupied slot while decrementing the parent
childcount by exactly one, which is what keeps the equality alive. -/
theorem childcount_invariant :
    (∀ (scale : ℚ) (md : Nat) (c : Point),
       ccInv (Octree.construct scale md c).root = true) ∧
    (∀ (t : Octree) (n : Nat), ccInv t.root = true →
       ccInv (t.init n).root = true) ∧
    (∀ (t : Octree) (v : OCTVolume), ccInv t.root = true →
       ccInv (t.diff_negative_root v).1.root = true) := by
  refine ⟨fun scale md c => rfl, fun t n h => ccInv_init n t h, fun t v h => ?_⟩
  rcases hD : diff_negative t.max_depth v t.root with ⟨res, ok⟩
  cases res with
  | none =>
    simp only [Octree.diff_negative_root, hD]
    rw [ccInv_evaluate]
    exact h
  | some r =>
    simp only [Octree.diff_negative_root, hD]
    exact ccInv_diff t.max_depth v t.root h r (by rw [hD])

/-- Witness for childcount_invariant: the constructed tree, one init round,
and one difference pass with the all-inside volume. -/
theorem childcount_invariant_witness :
    ccInv tFresh.root = true ∧ ccInv tOnce.root = true ∧
    ccInv ((tOnce.diff_negative_root volAllInside).1.root) = true :=
  ⟨childcount_invariant.1 1 1 origin,
   childcount_invariant.2.1 tFresh 1 (childcount_invariant.1 1 1 origin),
   childcount_invariant.2.2 tOnce volAllInside (by decide)⟩

/-- A slot list with no occupied slot contributes no nodes. -/
theorem get_all_nodes_of_slots_of_empty :
    ∀ (l : List (Option Octnode)), countSome l = 0 → get_all_nodes_of_slots l = []
  | [], _ => rfl
  | none :: rest, h => by
    rw [get_all_nodes_of_slots]
    exact get_all_nodes_of_slots_of_empty rest (by simpa using h)
  | some c :: rest, h => by
    simp at h

mutual

/-- On a tree with valid childcount bookkeeping, the leaf traversal is the
all-node pre-order traversal filtered to childcount-zero nodes. -/
theorem leaf_eq_filter :
    ∀ (x : Octnode), ccInv x = true →
      get_leaf_nodes x
        = (get_all_nodes x).filter (fun y => y.childcount == 0)
  | .mk d ch => by
    intro h
    rw [ccInv] at h
    simp only [Bool.and_eq_true, beq_iff_eq] at h
    rw [get_leaf_nodes, get_all_nodes]
    by_cases hc : d.childcount = 0
    · rw [if_pos hc, List.filter_cons,
          get_all_nodes_of_slots_of_empty ch (by omega)]
      simp [hc]
    · rw [if_neg hc, List.filter_cons]
      have hne : ((Octnode.mk d ch).childcount == 0) = false := by
        simpa using hc
      rw [Octnode.childcount_mk] at hne ⊢
      simp only [hne, cond_false]
      exact leaf_eq_filter_slots ch h.2

/-- Slot-wise version of leaf_eq_filter. -/
theorem leaf_eq_filter_slots :
    ∀ (l : List (Option Octnode)), ccInvSlots l = true →
      get_leaf_nodes_of_slots l
        = (get_all_nodes_of_slots l).filter (fun y => y.childcount == 0)
  | [] => by intro _; rfl
  | none :: rest => by
    intro h
    rw [ccInvSlots] at h
    rw [get_leaf_nodes_of_slots, get_all_nodes_of_slots]
    exact leaf_eq_filter_slots rest h
  | some c :: rest => by
    intro h
    rw [ccInvSlots, Bool.and_eq_true] at h
    rw [get_leaf_nodes_of_slots, get_all_nodes_of_slots, List.filter_append]
    rw [leaf_eq_filter c h.1, leaf_eq_filter_slots rest h.2]

end

mutual

/-- get_all_nodes collects exactly the descendants of the start node. -/
theorem mem_get_all_nodes :
    ∀ (x y : Octnode), y ∈ get_all_nodes x ↔ Descendant x y
  | .mk d ch, y => by
    rw [get_all_nodes]
    constructor
    · intro hy
      rcases List.mem_cons.mp hy with h1 | h1
      · subst h1
        exact Descendant.refl _
      · obtain ⟨c, hc, hdesc⟩ := (mem_get_all_slots ch y).mp h1
        exact Descendant.step d ch hc hdesc
    · intro hy
      cases hy with
      | refl => exact List.mem_cons_self _ _
      | step _ _ hc hdesc =>
        exact List.mem_cons_of_mem _
          ((mem_get_all_slots ch y).mpr ⟨_, hc, hdesc⟩)

/-- Slot-wise version of mem_get_all_nodes. -/
theorem mem_get_all_slots :
    ∀ (l : List (Option Octnode)) (y : Octnode),
      y ∈ get_all_nodes_of_slots l ↔ ∃ c, some c ∈ l ∧ Descendant c y
  | [], y => by
    rw [get_all_nodes_of_slots]
    simp
  | none :: rest, y => by
    rw [get_all_nodes_of_slots]
    rw [mem_get_all_slots rest y]
    constructor
    · rintro ⟨c, hc, hd⟩
      exact ⟨c, List.mem_cons_of_mem _ hc, hd⟩
    · rintro ⟨c, hc, hd⟩
      rcases List.mem_cons.mp hc with h1 | h1
      · cases h1
      · exact ⟨c, h1, hd⟩
  | some c :: rest, y => by
    rw [get_all_nodes_of_slots, List.mem_append]
    rw [mem_get_all_nodes c y, mem_get_all_slots rest y]
    constructor
    · rintro (hd | ⟨c', hc', hd'⟩)
      · exact ⟨c, List.mem_cons_self _ _, hd⟩
      · exact ⟨c', List.mem_cons_of_mem _ hc', hd'⟩
    · rintro ⟨c', hc', hd'⟩
      rcases List.mem_cons.mp hc' with h1 | h1
      · rw [Option.some.injEq] at h1
        subst h1
        exact Or.inl hd'
      · exact Or.inr ⟨c', h1, hd'⟩

end

/-- C8: on every tree with valid childcount bookkeeping, get_leaf_nodes
produces exactly the childcount-zero nodes reachable from the start node,
in the depth-first pre-order that get_all_nodes walks (node first, then
child slots 0..7, empty slots skipped): the leaf list is the all-node list
filtered to leaves, and membership is equivalent to being a descendant
leaf.  The traversal is a pure function of the tree, so it is
deterministic and mutates nothing. -/
theorem get_leaf_nodes_spec (x : Octnode) (h : ccInv x = true) :
    get_leaf_nodes x = (get_all_nodes x).filter (fun y => y.childcount == 0) ∧
    ∀ y, y ∈ get_leaf_nodes x ↔ (Descendant x y ∧ y.childcount = 0) := by
  refine ⟨leaf_eq_filter x h, fun y => ?_⟩
  rw [leaf_eq_filter x h, List.mem_filter, mem_get_all_nodes]
  simp

/-- Witness for get_leaf_nodes_spec at the once-subdivided tree. -/
theorem get_leaf_nodes_spec_witness :
    ccInv tOnce.root = true ∧
    (get_leaf_nodes tOnce.root
       = (get_all_nodes tOnce.root).filter (fun y => y.childcount == 0) ∧
     ∀ y, y ∈ get_leaf_nodes tOnce.root
       ↔ (Descendant tOnce.root y ∧ y.childcount = 0)) :=
  ⟨by decide, get_leaf_nodes_spec tOnce.root (by decide)⟩

/-- The inside flag produced by evaluation is true exactly for cells the
volume classifies as inside. -/
theorem evalFlags_inside_iff (v : OCTVolume) (b : Bbox) :
    (evalFlags v b).1 = true ↔ v.classify b = VClass.inside := by
  rcases h : v.classify b with _|_|_ <;> simp [evalFlags, h]

/-- The occupied-slot count of a cons. -/
theorem countSome_cons (o : Option Octnode) (l : List (Option Octnode)) :
    countSome (o :: l) = (if o.isSome then 1 else 0) + countSome l := by
  cases o <;> simp [countSome_none, countSome_some, Nat.add_comm]

/-- A slot list has occupied count zero exactly when every slot is empty. -/
theorem countSome_eq_zero (l : List (Option Octnode)) :
    countSome l = 0 ↔ ∀ o ∈ l, o = none := by
  induction l with
  | nil => simp
  | cons o rest ih =>
    cases o with
    | none => simp [countSome_none, ih]
    | some c => simp [countSome_some]

/-- build deletes a node (returns an empty slot) only when the volume
classifies the node cell as inside. -/
theorem build_none (v : OCTVolume) (c : Point) (s : ℚ) (dep idx : Nat)
    (surf : List Bool) (gas : Nat)
    (h : (build v c s dep idx surf gas).1 = none) :
    v.classify (nodeBB c s) = VClass.inside := by
  rcases hcl : v.classify (nodeBB c s) with _|_|_
  · rfl
  · exfalso
    cases gas <;> (rw [build] at h; simp [evalFlags, hcl] at h)
  · exfalso
    cases gas <;> (rw [build] at h; simp [evalFlags, hcl] at h)

/-- buildChild produces an empty slot only when the volume classifies the
octant cell as inside. -/
theorem buildChild_none (v : OCTVolume) (c : Point) (s : ℚ) (dep m : Nat)
    (surf : List Bool) (gas : Nat)
    (h : (buildChild v c s dep m surf gas).1 = none) :
    v.classify (nodeBB (childCenter c s m) (s / 2)) = VClass.inside := by
  rw [buildChild] at h
  split at h
  · exact build_none _ _ _ _ _ _ _ h
  · simp at h

/-- For an octant-coherent volume, every collapse assertion inside build
holds: a freshly subdivided cell can only lose all eight children when all
eight octants classify inside, which forces the cell itself inside. -/
theorem build_assert_ok : ∀ (gas : Nat) (v : OCTVolume), VolCoherent v →
    ∀ (c : Point) (s : ℚ) (dep idx : Nat) (surf : List Bool),
      (build v c s dep idx surf gas).2 = true := by
  intro gas
  induction gas with
  | zero =>
    intro v hco c s dep idx surf
    rw [build]
    by_cases h1 : (evalFlags v (nodeBB c s)).1 = true <;> simp [h1]
  | succ gas ih =>
    intro v hco c s dep idx surf
    rw [build]
    rcases hE : evalFlags v (nodeBB c s) with ⟨fi, fo⟩
    simp only [hE]
    cases fi with
    | true => simp
    | false =>
      cases fo with
      | true => simp
      | false =>
        simp only [Bool.false_eq_true, if_false]
        simp only [← buildChild.eq_def]
        have hA : ∀ m, (buildChild v c s dep m surf gas).2 = true := by
          intro m
          rw [buildChild]
          split
          · exact ih v hco _ _ _ _ _
          · rfl
        simp only [hA, Bool.and_true, Bool.true_and, Bool.or_false]
        rw [bne_iff_ne]
        intro h0
        have hall := (countSome_eq_zero _).mp h0
        have k : ∀ m, m < 8 →
            v.classify (nodeBB (childCenter c s m) (s / 2)) = VClass.inside := by
          intro m hm
          interval_cases m <;>
            (apply buildChild_none v c s dep _ surf gas; exact hall _ (by simp))
        have hin := hco c s k
        simp [evalFlags, hin] at hE

/-- The deletion count of a pass over a slot list never exceeds the number
of occupied slots. -/
theorem diffList_deleted_le (md : Nat) (v : OCTVolume) :
    ∀ (l : List (Option Octnode)), (diffList md v l).2.1 ≤ countSome l := by
  intro l
  induction l with
  | nil => simp [diffList]
  | cons o rest ih =>
    cases o with
    | none =>
      rw [diffList]
      simpa using ih
    | some c =>
      rw [diffList]
      by_cases hov : v.bb.overlaps c.bb = true
      · rcases hd : diff_negative md v c with ⟨res, ok⟩
        cases res with
        | none => simp only [hov, if_true, hd, countSome_some]; omega
        | some c2 => simp only [hov, if_true, hd, countSome_some]; omega
      · rw [Bool.not_eq_true] at hov
        simp only [hov, Bool.false_eq_true, if_false, countSome_some]
        omega

/-- If a pass over a slot list deleted as many children as there are
occupied slots, every occupied slot was recursed into and deleted. -/
theorem diffList_all_deleted (md : Nat) (v : OCTVolume) :
    ∀ (l : List (Option Octnode)), (diffList md v l).2.1 = countSome l →
      ∀ x, some x ∈ l → (diff_negative md v x).1 = none := by
  intro l
  induction l with
  | nil => intro _ x hx; cases hx
  | cons o rest ih =>
    cases o with
    | none =>
      rw [diffList]
      intro h x hx
      rcases List.mem_cons.mp hx with h1 | h1
      · cases h1
      · exact ih (by simpa using h) x h1
    | some c =>
      rw [diffList]
      by_cases hov : v.bb.overlaps c.bb = true
      · rcases hd : diff_negative md v c with ⟨res, ok⟩
        cases res with
        | none =>
          simp only [hov, if_true, hd, countSome_some]
          intro h x hx
          rcases List.mem_cons.mp hx with h1 | h1
          · rw [Option.some.injEq] at h1
            subst h1
            rw [hd]
          · exact ih (by omega) x h1
        | some c2 =>
          simp only [hov, if_true, hd, countSome_some]
          intro h x hx
          exfalso
          have := diffList_deleted_le md v rest
          omega
      · rw [Bool.not_eq_true] at hov
        simp only [hov, Bool.false_eq_true, if_false, countSome_some]
        intro h x hx
        exfalso
        have := diffList_deleted_le md v rest
        omega

/-- diff_negative returns an empty slot (node deleted) only when the volume
classifies the node cell as inside. -/
theorem diff_none (md : Nat) (v : OCTVolume) (x : Octnode)
    (h : (diff_negative md v x).1 = none) :
    v.classify x.bb = VClass.inside := by
  obtain ⟨d, ch⟩ := x
  rw [diff_negative] at h
  rcases hE : evalFlags v (nodeBB d.center d.scale) with ⟨fi, fo⟩
  simp only [hE] at h
  by_cases hc : d.childcount = 0
  · simp only [hc, if_true] at h
    cases fi with
    | true =>
      have := (evalFlags_inside_iff v (nodeBB d.center d.scale)).mp (by rw [hE])
      simpa using this
    | false =>
      cases fo with
      | true => simp at h
      | false =>
        by_cases hd : d.depth < md
        · simp only [Bool.false_eq_true, if_false, hd, if_true] at h
          have := build_none v d.center d.scale d.depth d.idx d.surface _ h
          simpa using this
        · simp only [Bool.false_eq_true, if_false, hd, if_true] at h
          simp at h
  · simp only [hc, if_false] at h
    simp at h

/-- A child found in a slot list satisfying fullSlots satisfies fullInv. -/
theorem fullSlots_mem (l : List (Option Octnode)) (c : Octnode)
    (h : fullSlots l = true) (hm : some c ∈ l) : fullInv c = true := by
  induction l with
  | nil => cases hm
  | cons o rest ih =>
    rcases List.mem_cons.mp hm with h1 | h1
    · subst h1
      rw [fullSlots, Bool.and_eq_true] at h
      exact h.1
    · cases o with
      | none => exact ih (by rwa [fullSlots] at h) h1
      | some x =>
        rw [fullSlots, Bool.and_eq_true] at h
        exact ih h.2 h1

/-- A child found in a slot region satisfying geomSlots satisfies
geomInv. -/
theorem geomSlots_mem :
    ∀ (l : List (Option Octnode)) (c : Point) (s : ℚ) (dep m0 : Nat),
      geomSlots c s dep m0 l = true →
      ∀ x, some x ∈ l → geomInv x = true := by
  intro l
  induction l with
  | nil => intro c s dep m0 _ x hx; cases hx
  | cons o rest ih =>
    intro c s dep m0 hg x hx
    cases o with
    | none =>
      rw [geomSlots] at hg
      rcases List.mem_cons.mp hx with h1 | h1
      · cases h1
      · exact ih c s dep (m0 + 1) hg x h1
    | some y =>
      rw [geomSlots] at hg
      simp only [Bool.and_eq_true] at hg
      rcases List.mem_cons.mp hx with h1 | h1
      · rw [Option.some.injEq] at h1
        subst h1
        exact hg.1.2
      · exact ih c s dep (m0 + 1) hg.2 x h1

/-- The child stored at offset j of a slot region satisfying geomSlots has
the octant geometry of slot m0 + j. -/
theorem geomSlots_get :
    ∀ (l : List (Option Octnode)) (c : Point) (s : ℚ) (dep m0 : Nat),
      geomSlots c s dep m0 l = true →
      ∀ j x, l.get? j = some (some x) →
        x.center = childCenter c s (m0 + j) ∧ x.scale = s / 2 := by
  intro l
  induction l with
  | nil => intro c s dep m0 _ j x hx; simp at hx
  | cons o rest ih =>
    intro c s dep m0 hg j x hx
    cases o with
    | none =>
      rw [geomSlots] at hg
      cases j with
      | zero => simp at hx
      | succ j =>
        have := ih c s dep (m0 + 1) hg j x (by simpa using hx)
        rw [show m0 + (j + 1) = m0 + 1 + j by omega]
        exact this
    | some y =>
      rw [geomSlots] at hg
      simp only [Bool.and_eq_true, beq_iff_eq] at hg
      cases j with
      | zero =>
        simp only [List.get?_cons_zero, Option.some.injEq] at hx
        subst hx
        rw [Nat.add_zero]
        exact ⟨hg.1.1.1.1, hg.1.1.1.2⟩
      | succ j =>
        have := ih c s dep (m0 + 1) hg.2 j x (by simpa using hx)
        rw [show m0 + (j + 1) = m0 + 1 + j by omega]
        exact this

/-- The occupied count is at most the length. -/
theorem countSome_le (l : List (Option Octnode)) : countSome l ≤ l.length := by
  rw [countSome]
  exact List.length_filter_le _ _

/-- A slot list whose occupied count equals its length has a child in every
slot. -/
theorem all_slots_some :
    ∀ (l : List (Option Octnode)), countSome l = l.length →
      ∀ j, j < l.length → ∃ x, l.get? j = some (some x) := by
  intro l
  induction l with
  | nil => intro _ j hj; simp at hj
  | cons o rest ih =>
    intro h j hj
    cases o with
    | none =>
      exfalso
      rw [countSome_none] at h
      have := countSome_le rest
      simp only [List.length_cons] at h
      omega
    | some c =>
      cases j with
      | zero => exact ⟨c, rfl⟩
      | succ j =>
        refine ih ?_ j (by simpa using hj)
        rw [countSome_some] at h
        simp only [List.length_cons] at h
        omega

mutual

/-- For an octant-coherent volume, every collapse assertion met during a
pass over a tree whose nodes are full (0 or 8 children) with valid
bookkeeping and octant geometry holds: a node can only be emptied when all
eight octant children classified inside, which forces the node inside. -/
theorem diff_assert_ok (md : Nat) (v : OCTVolume) (hco : VolCoherent v) :
    ∀ (x : Octnode), ccInv x = true → fullInv x = true → geomInv x = true →
      (diff_negative md v x).2 = true
  | .mk d ch => by
    intro hcc hfull hgeom
    rw [diff_negative]
    rcases hE : evalFlags v (nodeBB d.center d.scale) with ⟨fi, fo⟩
    simp only [hE]
    rw [ccInv] at hcc
    simp only [Bool.and_eq_true, beq_iff_eq] at hcc
    rw [fullInv] at hfull
    simp only [Bool.and_eq_true, Bool.or_eq_true, beq_iff_eq] at hfull
    rw [geomInv] at hgeom
    by_cases hc : d.childcount = 0
    · simp only [hc, if_true]
      cases fi with
      | true => simp
      | false =>
        cases fo with
        | true => simp
        | false =>
          simp only [Bool.false_eq_true, if_false]
          by_cases hd : d.depth < md
          · rw [if_pos hd]
            exact build_assert_ok _ v hco _ _ _ _ _
          · rw [if_neg hd]
    · simp only [hc, if_false]
      have hok := diffList_assert_ok md v hco ch hcc.2 hfull.2
        (geomSlots_mem ch d.center d.scale d.depth 0 hgeom)
      rw [Bool.and_eq_true]
      refine ⟨hok, ?_⟩
      rw [Bool.or_eq_true]
      by_cases hz : d.childcount - (diffList md v ch).2.1 = 0
      · right
        have e1 := hcc.1.1
        have hcs8 : countSome ch = 8 := by
          rcases hfull.1 with h0 | h8
          · omega
          · exact h8
        have hdel : (diffList md v ch).2.1 = countSome ch := by
          have := diffList_deleted_le md v ch
          omega
        have hlen : ch.length = 8 := hcc.1.2
        have k : ∀ m, m < 8 →
            v.classify (nodeBB (childCenter d.center d.scale m) (d.scale / 2))
              = VClass.inside := by
          intro m hm
          obtain ⟨x, hx⟩ := all_slots_some ch (by omega) m (by omega)
          have hmem : some x ∈ ch := List.get?_mem hx
          have hnone := diffList_all_deleted md v ch hdel x hmem
          have hin := diff_none md v x hnone
          obtain ⟨hcen, hsc⟩ := geomSlots_get ch d.center d.scale d.depth 0 hgeom m x hx
          rw [Octnode.bb, hcen, hsc, Nat.zero_add] at hin
          exact hin
        have hin := hco d.center d.scale k
        simp [evalFlags, hin] at hE
        exact hE.1
      · left
        simpa [bne_iff_ne] using hz

/-- Slot-wise version of diff_assert_ok. -/
theorem diffList_assert_ok (md : Nat) (v : OCTVolume) (hco : VolCoherent v) :
    ∀ (l : List (Option Octnode)), ccInvSlots l = true → fullSlots l = true →
      (∀ x, some x ∈ l → geomInv x = true) →
      (diffList md v l).2.2 = true
  | [] => by intro _ _ _; rfl
  | none :: rest => by
    intro h1 h2 h3
    rw [ccInvSlots] at h1
    rw [fullSlots] at h2
    rw [diffList]
    exact diffList_assert_ok md v hco rest h1 h2
      (fun x hx => h3 x (List.mem_cons_of_mem _ hx))
  | some c :: rest => by
    intro h1 h2 h3
    rw [ccInvSlots, Bool.and_eq_true] at h1
    rw [fullSlots, Bool.and_eq_true] at h2
    have ihc := diff_assert_ok md v hco c h1.1 h2.1 (h3 c (List.mem_cons_self _ _))
    have ihr := diffList_assert_ok md v hco rest h1.2 h2.2
      (fun x hx => h3 x (List.mem_cons_of_mem _ hx))
    rw [diffList]
    by_cases hov : v.bb.overlaps c.bb = true
    · rcases hd : diff_negative md v c with ⟨res, ok⟩
      rw [hd] at ihc
      cases res with
      | none =>
        simp only [hov, if_true, hd]
        simp only at ihc
        simp [ihc, ihr]
      | some c2 =>
        simp only [hov, if_true, hd]
        simp only at ihc
        simp [ihc, ihr]
    · rw [Bool.not_eq_true] at hov
      simp only [hov, Bool.false_eq_true, if_false]
      exact ihr

end

/-- C1 amended: the original claim fails on reachable trees whose parents
lost part of their children in an earlier pass with a different volume
(see the counterexample); it holds in the situation the spec's collapse
law describes: on trees whose nodes all carry either no children or the
full eight at the octant geometry (the shape construct and init produce),
and for volume classifiers that are octant-coherent, every collapse in a
diff_negative_root pass re-evaluates the emptied parent as inside, so the
assertion of line 148 never fails. -/
theorem collapse_assertion_on_full_trees (t : Octree) (v : OCTVolume)
    (hcc : ccInv t.root = true) (hfull : fullInv t.root = true)
    (hgeom : geomInv t.root = true) (hco : VolCoherent v) :
    (t.diff_negative_root v).2 = true := by
  have h := diff_assert_ok t.max_depth v hco t.root hcc hfull hgeom
  rcases hD : diff_negative t.max_depth v t.root with ⟨res, ok⟩
  rw [hD] at h
  cases res <;> simp only [Octree.diff_negative_root, hD] <;> exact h

/-- Witness for collapse_assertion_on_full_trees: the once-subdivided tree
against the all-inside volume. -/
theorem collapse_assertion_on_full_trees_witness :
    (ccInv tOnce.root = true ∧ fullInv tOnce.root = true ∧
     geomInv tOnce.root = true) ∧
    (tOnce.diff_negative_root volAllInside).2 = true :=
  ⟨⟨by decide, by decide, by decide⟩,
   collapse_assertion_on_full_trees tOnce volAllInside (by decide) (by decide)
     (by decide) (fun _ _ _ => rfl)⟩

/-- A childless node is its own leaf list. -/
theorem get_leaf_nodes_leaf (x : Octnode) (h : x.childcount = 0) :
    get_leaf_nodes x = [x] := by
  obtain ⟨d, ch⟩ := x
  rw [get_leaf_nodes, if_pos (by simpa using h)]

/-- An all-inside volume deletes every leaf it visits. -/
theorem diff_leaf_all_inside (md : Nat) (v : OCTVolume)
    (hin : ∀ b, v.classify b = VClass.inside) (x : Octnode)
    (h : x.childcount = 0) : diff_negative md v x = (none, true) := by
  obtain ⟨d, ch⟩ := x
  rw [diff_negative]
  simp only [Octnode.childcount_mk] at h
  simp [h, evalFlags, hin]

/-- allOverlapSlots holds on a run of empty slots. -/
theorem allOverlapSlots_replicate (v : OCTVolume) :
    ∀ n, allOverlapSlots v (List.replicate n none) = true := by
  intro n
  induction n with
  | zero => rfl
  | succ k ih => rw [List.replicate_succ, allOverlapSlots]; exact ih

/-- With an all-inside volume, a run over the slots of a uniform depth-zero
level (all leaves) deletes every child. -/
theorem diffList_uniform_zero (md : Nat) (v : OCTVolume)
    (hin : ∀ b, v.classify b = VClass.inside) :
    ∀ (l : List (Option Octnode)), uniformSlots 0 l = true →
      allOverlapSlots v l = true →
      diffList md v l = (List.replicate l.length none, l.length, true) := by
  intro l
  induction l with
  | nil => intro _ _; rfl
  | cons o rest ih =>
    cases o with
    | none => intro h _; rw [uniformSlots] at h; cases h
    | some c =>
      intro h hov
      rw [uniformSlots, Bool.and_eq_true] at h
      rw [allOverlapSlots, Bool.and_eq_true] at hov
      have hovc : v.bb.overlaps c.bb = true := by
        obtain ⟨dc, chc⟩ := c
        rw [allOverlap, Bool.and_eq_true] at hov
        · exact hov.1.1
      have hc0 : c.childcount = 0 := by
        rw [uniformB] at h
        simpa using h.1
      rw [diffList, if_pos hovc, diff_leaf_all_inside md v hin c hc0,
          ih h.2 hov.2]
      simp [List.replicate_succ]

/-- allOverlap gives overlap at the node itself. -/
theorem allOverlap_overlaps (v : OCTVolume) (x : Octnode)
    (h : allOverlap v x = true) : v.bb.overlaps x.bb = true := by
  obtain ⟨d, ch⟩ := x
  rw [allOverlap, Bool.and_eq_true] at h
  simpa using h.1

/-- One pass of an all-inside volume over a uniform tree collapses exactly
one level: depth k + 1 becomes depth k, the surviving node flagged inside,
geometry untouched and overlap cover preserved. -/
theorem diff_uniform_step (md : Nat) (v : OCTVolume)
    (hin : ∀ b, v.classify b = VClass.inside) :
    ∀ (k : Nat) (x : Octnode), uniformB (k + 1) x = true →
      allOverlap v x = true →
      ∃ x', (diff_negative md v x).1 = some x' ∧ uniformB k x' = true ∧
        allOverlap v x' = true ∧ x'.inside = true ∧
        x'.center = x.center ∧ x'.scale = x.scale ∧ x'.depth = x.depth := by
  intro k
  induction k with
  | zero =>
    intro x hu hov
    obtain ⟨d, ch⟩ := x
    rw [uniformB] at hu
    simp only [Bool.and_eq_true, beq_iff_eq] at hu
    rw [allOverlap, Bool.and_eq_true] at hov
    have hc : d.childcount ≠ 0 := by
      have := hu.1.1
      omega
    rw [diff_negative]
    simp only [if_neg hc, diffList_uniform_zero md v hin ch hu.2 hov.2]
    refine ⟨_, rfl, ?_, ?_, ?_, rfl, rfl, rfl⟩
    · rw [uniformB]
      simp [hu.1.1, hu.1.2]
    · rw [allOverlap, Bool.and_eq_true]
      exact ⟨hov.1, allOverlapSlots_replicate v ch.length⟩
    · simp [evalFlags, hin]
  | succ k ih =>
    intro x hu hov
    obtain ⟨d, ch⟩ := x
    rw [uniformB] at hu
    simp only [Bool.and_eq_true, beq_iff_eq] at hu
    rw [allOverlap, Bool.and_eq_true] at hov
    have hc : d.childcount ≠ 0 := by
      have := hu.1.1
      omega
    have hl : ∀ (l : List (Option Octnode)), uniformSlots (k + 1) l = true →
        allOverlapSlots v l = true →
        (diffList md v l).2.1 = 0 ∧ (diffList md v l).1.length = l.length ∧
        uniformSlots k (diffList md v l).1 = true ∧
        allOverlapSlots v (diffList md v l).1 = true := by
      intro l
      induction l with
      | nil => intro _ _; exact ⟨rfl, rfl, rfl, rfl⟩
      | cons o rest ihl =>
        cases o with
        | none => intro h _; rw [uniformSlots] at h; cases h
        | some c =>
          intro h hoc
          rw [uniformSlots, Bool.and_eq_true] at h
          rw [allOverlapSlots, Bool.and_eq_true] at hoc
          obtain ⟨c', hc1, hc2, hc3, hc4, hc5, hc6, hc7⟩ := ih c h.1 hoc.1
          have hovc : v.bb.overlaps c.bb = true := allOverlap_overlaps v c hoc.1
          have ihr := ihl h.2 hoc.2
          rcases hdd : diff_negative md v c with ⟨res, ok⟩
          rw [hdd] at hc1
          cases res with
          | none => cases hc1
          | some r =>
            rw [Option.some.injEq] at hc1
            subst hc1
            rw [diffList, if_pos hovc, hdd]
            refine ⟨by simpa using ihr.1, by simpa using ihr.2.1, ?_, ?_⟩
            · rw [uniformSlots, Bool.and_eq_true]
              exact ⟨hc2, ihr.2.2.1⟩
            · rw [allOverlapSlots, Bool.and_eq_true]
              exact ⟨hc3, ihr.2.2.2⟩
    have hll := hl ch hu.2 hov.2
    rw [diff_negative]
    simp only [if_neg hc]
    refine ⟨_, rfl, ?_, ?_, ?_, rfl, rfl, rfl⟩
    · rw [uniformB]
      simp only [Bool.and_eq_true, beq_iff_eq]
      refine ⟨⟨?_, ?_⟩, hll.2.2.1⟩
      · simp [hll.1, hu.1.1]
      · simp [hll.2.1, hu.1.2]
    · rw [allOverlap, Bool.and_eq_true]
      exact ⟨hov.1, hll.2.2.2⟩
    · simp [evalFlags, hin]

/-- Subdividing any node yields a uniform tree of depth one. -/
theorem uniformB_subdivide (d : NodeData) (ch : List (Option Octnode)) :
    uniformB 1 ((Octnode.mk d ch).subdivide) = true := rfl

/-- One init round deepens a uniform tree by one level. -/
theorem uniformB_initRound :
    ∀ (k : Nat) (x : Octnode), uniformB k x = true →
      uniformB (k + 1) (initRound x) = true := by
  intro k
  induction k with
  | zero =>
    intro x hu
    obtain ⟨d, ch⟩ := x
    rw [uniformB] at hu
    simp only [Octnode.childcount_mk, beq_iff_eq] at hu
    rw [initRound, if_pos hu]
    exact uniformB_subdivide d ch
  | succ k ih =>
    intro x hu
    obtain ⟨d, ch⟩ := x
    rw [uniformB] at hu
    simp only [Bool.and_eq_true, beq_iff_eq] at hu
    have hc : d.childcount ≠ 0 := by
      have := hu.1.1
      omega
    rw [initRound, if_neg hc]
    have hl : ∀ (l : List (Option Octnode)), uniformSlots k l = true →
        uniformSlots (k + 1) (initRoundSlots l) = true ∧
        (initRoundSlots l).length = l.length := by
      intro l
      induction l with
      | nil => intro _; exact ⟨rfl, rfl⟩
      | cons o rest ihl =>
        cases o with
        | none => intro h; rw [uniformSlots] at h; cases h
        | some c =>
          intro h
          rw [uniformSlots, Bool.and_eq_true] at h
          have hr := ihl h.2
          rw [initRoundSlots]
          refine ⟨?_, by simpa using hr.2⟩
          rw [uniformSlots, Bool.and_eq_true]
          exact ⟨ih c h.1, hr.1⟩
    have hll := hl ch hu.2
    rw [uniformB]
    simp only [Bool.and_eq_true, beq_iff_eq]
    exact ⟨⟨hu.1.1, by rw [hll.2]; exact hu.1.2⟩, hll.1⟩

/-- An init round does not move a node. -/
theorem initRound_geom (x : Octnode) :
    (initRound x).center = x.center ∧ (initRound x).scale = x.scale ∧
    (initRound x).depth = x.depth := by
  obtain ⟨d, ch⟩ := x
  rw [initRound]
  split <;> simp [Octnode.subdivide]

/-- n rounds of init on a uniform tree give a uniform tree n levels deeper
with the root geometry and the tree configuration unchanged. -/
theorem init_uniform_geom :
    ∀ (n : Nat) (t : Octree) (k : Nat), uniformB k t.root = true →
      uniformB (k + n) (t.init n).root = true ∧
      (t.init n).root.center = t.root.center ∧
      (t.init n).root.scale = t.root.scale ∧
      (t.init n).root.depth = t.root.depth
  | 0, t, k, h => ⟨h, rfl, rfl, rfl⟩
  | Nat.succ m, t, k, h => by
    have h1 := uniformB_initRound k t.root h
    have hg := initRound_geom t.root
    have hrec := init_uniform_geom m { t with root := initRound t.root } (k + 1) h1
    refine ⟨?_, hrec.2.1.trans hg.1, hrec.2.2.1.trans hg.2.1, hrec.2.2.2.trans hg.2.2⟩
    rw [show k + (m + 1) = k + 1 + m from by omega]
    exact hrec.1

/-- Iterated all-inside passes on a uniform tree of positive depth collapse
it to the root alone, flagged inside, one level per pass, and none of the
passes trips the line-137 root assert: a uniform tree of positive depth
has an internal root on every pass before the last, and the last pass
collapses the root without deleting it. -/
theorem iterDiff_uniform (v : OCTVolume)
    (hin : ∀ b, v.classify b = VClass.inside) :
    ∀ (k : Nat) (t : Octree), 1 ≤ k → uniformB k t.root = true →
      allOverlap v t.root = true →
      get_leaf_nodes (iterDiff k t v).root = [(iterDiff k t v).root] ∧
      (iterDiff k t v).root.inside = true ∧
      (iterDiff k t v).root.center = t.root.center ∧
      (iterDiff k t v).root.scale = t.root.scale ∧
      (iterDiff k t v).root.depth = t.root.depth ∧
      (∀ i, i < k → (iterDiff i t v).diff_negative_root_aborts v = false) := by
  intro k
  induction k with
  | zero => intro t h; omega
  | succ k ih =>
    intro t _ hu hov
    obtain ⟨x', h1, h2, h3, h4, h5, h6, h7⟩ :=
      diff_uniform_step t.max_depth v hin k t.root hu hov
    rcases hD : diff_negative t.max_depth v t.root with ⟨res, ok⟩
    rw [hD] at h1
    cases res with
    | none => cases h1
    | some r =>
      rw [Option.some.injEq] at h1
      subst h1
      have hroot : (t.diff_negative_root v).1 = { t with root := r } := by
        simp [Octree.diff_negative_root, hD]
      have habort0 : t.diff_negative_root_aborts v = false := by
        rw [Octree.diff_negative_root_aborts, hD]
      cases k with
      | zero =>
        rw [show iterDiff 1 t v = (t.diff_negative_root v).1 from rfl, hroot]
        rw [uniformB] at h2
        simp only [beq_iff_eq] at h2
        refine ⟨get_leaf_nodes_leaf _ h2, h4, h5, h6, h7, ?_⟩
        intro i hi
        have hi0 : i = 0 := by omega
        subst hi0
        exact habort0
      | succ j =>
        have hrec := ih (t.diff_negative_root v).1 (by omega)
          (by rw [hroot]; exact h2) (by rw [hroot]; exact h3)
        rw [show iterDiff (j + 1 + 1) t v = iterDiff (j + 1) (t.diff_negative_root v).1 v from rfl]
        refine ⟨hrec.1, hrec.2.1, ?_, ?_, ?_, ?_⟩
        · rw [hrec.2.2.1, hroot]
          exact h5
        · rw [hrec.2.2.2.1, hroot]
          exact h6
        · rw [hrec.2.2.2.2.1, hroot]
          exact h7
        · intro i hi
          cases i with
          | zero => exact habort0
          | succ i2 =>
            rw [show iterDiff (i2 + 1) t v = iterDiff i2 (t.diff_negative_root v).1 v from rfl]
            exact hrec.2.2.2.2.2 i2 (by omega)

/-- C2 amended: containment of the root box by the volume bounding box is
not enough (see the counterexample), and the fresh-tree scenario does not
even complete cleanly as shipped: the root is the one node with a null
parent and the assert(parent) of line 137 sits outside the if (parent)
guard, so the single call on a fresh tree evaluates the root inside and
then trips that assert (a build with assertions disabled would finish with
the single inside root leaf).  What does hold: for a cutting volume that
classifies every cell inside, with a bounding box overlapping every cell
of the tree, a tree pre-subdivided with n >= 1 uniform rounds collapses
exactly one level per diff_negative_root call, no call tripping the
line-137 assert, and after exactly n calls the tree has exactly 1 leaf -
the root itself at its original center, scale and depth - flagged
inside. -/
theorem all_inside_volume_collapse (scaleq : ℚ) (md : Nat) (cp : Point)
    (v : OCTVolume) (n : Nat)
    (hin : ∀ b, v.classify b = VClass.inside)
    (hov : allOverlap v ((Octree.construct scaleq md cp).init n).root = true) :
    (1 ≤ n →
      get_leaf_nodes (iterDiff n ((Octree.construct scaleq md cp).init n) v).root
        = [(iterDiff n ((Octree.construct scaleq md cp).init n) v).root] ∧
      (iterDiff n ((Octree.construct scaleq md cp).init n) v).root.inside = true ∧
      (iterDiff n ((Octree.construct scaleq md cp).init n) v).root.center = cp ∧
      (iterDiff n ((Octree.construct scaleq md cp).init n) v).root.scale = scaleq ∧
      (iterDiff n ((Octree.construct scaleq md cp).init n) v).root.depth = 0 ∧
      (∀ i, i < n →
        (iterDiff i ((Octree.construct scaleq md cp).init n) v).diff_negative_root_aborts v
          = false)) ∧
    (Octree.construct scaleq md cp).diff_negative_root_aborts v = true := by
  constructor
  · intro hn
    obtain ⟨m, rfl⟩ : ∃ m, n = m + 1 := ⟨n - 1, by omega⟩
    have hu0 : uniformB 0 (Octree.construct scaleq md cp).root = true := rfl
    have hinit := init_uniform_geom (m + 1) (Octree.construct scaleq md cp) 0 hu0
    have hiter := iterDiff_uniform v hin (m + 1)
      ((Octree.construct scaleq md cp).init (m + 1)) (by omega)
      (by rw [show (0 : Nat) + (m + 1) = m + 1 from by omega] at hinit; exact hinit.1) hov
    refine ⟨hiter.1, hiter.2.1, ?_, ?_, ?_, hiter.2.2.2.2.2⟩
    · rw [hiter.2.2.1, hinit.2.1]
      rfl
    · rw [hiter.2.2.2.1, hinit.2.2.1]
      rfl
    · rw [hiter.2.2.2.2.1, hinit.2.2.2]
      rfl
  · rw [Octree.diff_negative_root_aborts]
    have hD : diff_negative (Octree.construct scaleq md cp).max_depth v
        (Octree.construct scaleq md cp).root = (none, true) :=
      diff_leaf_all_inside _ v hin _ rfl
    rw [hD]

/-- Witness for all_inside_volume_collapse: two init rounds at max depth 2
against the all-inside volume; two clean passes collapse the 64 leaves
back to the root, while the same volume on the fresh tree trips the
line-137 assert. -/
theorem all_inside_volume_collapse_witness :
    ((∀ b, volAllInside.classify b = VClass.inside) ∧
     allOverlap volAllInside ((Octree.construct 1 2 origin).init 2).root = true) ∧
    ((1 ≤ 2 →
       get_leaf_nodes (iterDiff 2 ((Octree.construct 1 2 origin).init 2) volAllInside).root
         = [(iterDiff 2 ((Octree.construct 1 2 origin).init 2) volAllInside).root] ∧
       (iterDiff 2 ((Octree.construct 1 2 origin).init 2) volAllInside).root.inside = true ∧
       (iterDiff 2 ((Octree.construct 1 2 origin).init 2) volAllInside).root.center = origin ∧
       (iterDiff 2 ((Octree.construct 1 2 origin).init 2) volAllInside).root.scale = 1 ∧
       (iterDiff 2 ((Octree.construct 1 2 origin).init 2) volAllInside).root.depth = 0 ∧
       (∀ i, i < 2 →
         (iterDiff i ((Octree.construct 1 2 origin).init 2)
             volAllInside).diff_negative_root_aborts volAllInside = false)) ∧
     (Octree.construct 1 2 origin).diff_negative_root_aborts volAllInside = true) :=
  ⟨⟨fun _ => rfl, by decide⟩,
   all_inside_volume_collapse 1 2 origin volAllInside 2 (fun _ => rfl) (by decide)⟩
